import Mathlib

/-!
Verification of the `smaz-py3` CPython wrapper (`src/smazmodule.c`).

The repository wraps the external SMAZ codec behind two Python functions,
`compress` and `decompress`.  Each wrapper parses its single host argument,
allocates a 4096-byte scratch buffer, invokes the codec, doubles the buffer
and retries while the codec reports the overflow sentinel
(capacity + 1), and finally packages the reported prefix of the buffer as
the host result.

Bytes are modelled as natural numbers and buffers as lists of bytes.  The
codec itself (`smaz.c`) is not part of the sources; it is modelled from the
spec's transform contract, parameterised by the pure output function `f` of
the direction being wrapped.  Allocation is modelled by an oracle `Mem`
supplying junk contents for fresh memory and a per-allocation failure flag;
the C code never checks allocation results, so a failed allocation is
modelled as an immediate crash (undefined behaviour), see `py_smaz_compress`.
-/

/-- A host (Python) value crossing the module boundary: a text value
(as its UTF-8 byte sequence), a bytes value, or a value of any other shape.
The argument tuple of a call is a `List PyVal`. -/
inductive PyVal where
  | str (s : List Nat)
  | bytes (b : List Nat)
  | intVal (n : Int)
  | other

/-- Observable outcome of one wrapped call:
a returned byte/text sequence, a Python argument error (parse failure),
a raised out-of-memory error, or undefined behaviour (the C code
dereferencing NULL or writing out of bounds). The code under verification
never produces `memError`; the constructor exists to state what the spec
demands of allocation failures. -/
inductive PyRes where
  | ok (out : List Nat)
  | argError
  | memError
  | crash

/-- Outcome of the sizing retry loop: the transform's final result code,
the final capacity (the C variable `output_buffer_size`), and the final
scratch-buffer contents; or a crash when an unchecked allocation failed. -/
inductive LoopOut where
  | done (code : Nat) (cap : Nat) (buf : List Nat)
  | crash

/-- Allocation oracle: `junk r i` is the byte found at position `i` of the
memory returned by the `r`-th allocation of a call, and `fails r` tells
whether that allocation fails (returns NULL).  Allocation 0 is the initial
`malloc(4096)`; allocation `r ≥ 1` happens in round `r` of the retry loop. -/
structure Mem where
  junk : Nat → Nat → Nat
  fails : Nat → Bool

/-- Result of the `r`-th allocation of `n` bytes: junk contents of length
`n`, or `none` on failure. -/
def Mem.alloc (m : Mem) (r n : Nat) : Option (List Nat) :=
  if m.fails r then none else some ((List.range n).map (m.junk r))

/-- A memory oracle that never fails and returns zeroed junk. -/
def Mem.zeros : Mem := { junk := fun _ _ => 0, fails := fun _ => false }

/-- A memory oracle whose every allocation fails. -/
def memFail : Mem := { junk := fun _ _ => 0, fails := fun _ => true }

/-- Modelled from the spec: result code of the transform contract (spec
section 4.1); `smaz.c` is not among the sources, so the codec is the pure
output function `f`.  If the true output `f input` fits the capacity, the
code is its length; otherwise the overflow sentinel `cap + 1`. -/
def transformCode (f : List Nat → List Nat) (input : List Nat) (cap : Nat) : Nat :=
  if (f input).length ≤ cap then (f input).length else cap + 1

/-- Modelled from the spec: one invocation of the transform on a scratch
buffer (capacity = the buffer's extent).  Returns the result code and the
buffer afterwards: on success the first `code` bytes hold the output and the
bytes beyond are untouched junk; on overflow the buffer is unreliable
(left as is). -/
def runTransform (f : List Nat → List Nat) (input : List Nat) (buf : List Nat) :
    Nat × List Nat :=
  (transformCode f input buf.length,
    if (f input).length ≤ buf.length then f input ++ buf.drop (f input).length else buf)

/-- Growth step of the compress path (`realloc`, src/smazmodule.c line 37):
the old contents are preserved and the extension is fresh junk. -/
def growRealloc (old j : List Nat) : List Nat := old ++ j.drop old.length

/-- Growth step of the decompress path (`malloc`, src/smazmodule.c line 88):
a fresh junk buffer; the old one is leaked, its contents dropped. -/
def growFresh (_old : List Nat) (j : List Nat) : List Nat := j

/-- The retry loop shared by both wrappers (src/smazmodule.c lines 22-42 and
75-92): run the transform; while the result equals `output_buffer_size + 1`,
double the size, re-allocate via `grow`, and retry.  `fuel` bounds the
number of iterations the model unfolds (the C loop has no bound; the
callers below pass fuel sufficient for every pure transform).  An unchecked
failed allocation crashes the call: the C code passes the NULL buffer
straight to the transform. -/
def sizingLoop (grow : List Nat → List Nat → List Nat) (f : List Nat → List Nat)
    (input : List Nat) (m : Mem) : Nat → Nat → List Nat → Option LoopOut
  | 0, _, _ => none
  | fuel + 1, round, buf =>
    let r := runTransform f input buf
    if r.1 = buf.length + 1 then
      match m.alloc round (2 * buf.length) with
      | none => some LoopOut.crash
      | some j => sizingLoop grow f input m fuel (round + 1) (grow buf j)
    else some (LoopOut.done r.1 buf.length r.2)

/-- Length of the C string seen by `strlen`: bytes up to the first NUL. -/
def strlen (s : List Nat) : Nat := (s.takeWhile (· != 0)).length

/-- The `compress` wrapper (src/smazmodule.c lines 5-52).
Argument parsing with format "s": exactly one text argument, rejected with
an argument error when it contains an embedded NUL byte.  The transform is
invoked on the `strlen` prefix of the text.  On success the first
`compressed_size` bytes of the scratch buffer are packaged as Python bytes
(`Py_BuildValue` with "y#").  The fuel passed to the loop is one more than
the true output length, which the lemmas below show is always sufficient. -/
def py_smaz_compress (f : List Nat → List Nat) (m : Mem) (args : List PyVal) :
    Option PyRes :=
  match args with
  | [PyVal.str s] =>
    if 0 ∈ s then some PyRes.argError
    else
      match m.alloc 0 4096 with
      | none => some PyRes.crash
      | some buf0 =>
        match sizingLoop growRealloc f (s.take (strlen s)) m
            ((f (s.take (strlen s))).length + 1) 1 buf0 with
        | none => none
        | some LoopOut.crash => some PyRes.crash
        | some (LoopOut.done code _ buf) => some (PyRes.ok (buf.take code))
  | _ => some PyRes.argError

/-- The `decompress` wrapper (src/smazmodule.c lines 54-102).
Argument parsing with format "y#": exactly one bytes argument, any byte
values allowed.  After the loop the code writes a NUL terminator at index
`decompressed_size` -- in bounds only when that index is strictly below the
buffer extent, otherwise the write is an out-of-bounds heap write, modelled
as a crash -- and builds a Python string from the buffer up to its first
NUL (`Py_BuildValue` with "s"). -/
def py_smaz_decompress (f : List Nat → List Nat) (m : Mem) (args : List PyVal) :
    Option PyRes :=
  match args with
  | [PyVal.bytes b] =>
    match m.alloc 0 4096 with
    | none => some PyRes.crash
    | some buf0 =>
      match sizingLoop growFresh f b m ((f b).length + 1) 1 buf0 with
      | none => none
      | some LoopOut.crash => some PyRes.crash
      | some (LoopOut.done code _ buf) =>
        if code < buf.length then
          some (PyRes.ok ((buf.set code 0).takeWhile (· != 0)))
        else some PyRes.crash
  | _ => some PyRes.argError

/-- The identity codec: a transform satisfying the spec's contract whose
compress and decompress directions are both the identity, used to
instantiate the spec-modelled black box on concrete runs. -/
def idCodec : List Nat → List Nat := fun l => l

/-- A decompress direction whose output is exactly 4096 bytes, the initial
buffer capacity. -/
def constOut4096 : List Nat → List Nat := fun _ => List.replicate 4096 65

/-- Unfolding of one loop iteration. -/
theorem sizingLoop_succ (grow : List Nat → List Nat → List Nat)
    (f : List Nat → List Nat) (input : List Nat) (m : Mem)
    (fuel round : Nat) (buf : List Nat) :
    sizingLoop grow f input m (fuel + 1) round buf =
      if (runTransform f input buf).1 = buf.length + 1 then
        match m.alloc round (2 * buf.length) with
        | none => some LoopOut.crash
        | some j => sizingLoop grow f input m fuel (round + 1) (grow buf j)
      else some (LoopOut.done (runTransform f input buf).1 buf.length
        (runTransform f input buf).2) := rfl

theorem alloc_of_ok (m : Mem) (r n : Nat) (h : m.fails r = false) :
    m.alloc r n = some ((List.range n).map (m.junk r)) := by
  simp [Mem.alloc, h]

theorem growRealloc_length (old j : List Nat) (h : old.length ≤ j.length) :
    (growRealloc old j).length = j.length := by
  simp [growRealloc]
  omega

theorem growFresh_length (old j : List Nat) (_h : old.length ≤ j.length) :
    (growFresh old j).length = j.length := rfl

theorem take_len_append (xs ys : List Nat) : (xs ++ ys).take xs.length = xs :=
  List.take_left xs ys

theorem set_len_append (xs ys : List Nat) (v : Nat) :
    (xs ++ ys).set xs.length v = xs ++ ys.set 0 v := by
  induction xs with
  | nil => rfl
  | cons x xs ih =>
    simp only [List.cons_append, List.length_cons, List.set_cons_succ, ih]

theorem takeWhile_append_zero (xs t : List Nat) :
    ((xs ++ 0 :: t).takeWhile (· != 0)) = xs.takeWhile (· != 0) := by
  induction xs with
  | nil => rfl
  | cons x xs ih =>
    by_cases hx : x = 0
    · subst hx; rfl
    · have hxb : (x != 0) = true := by simpa using hx
      simp only [List.cons_append, List.takeWhile_cons, hxb, if_true, ih]

theorem takeWhile_ne_zero (s : List Nat) (hs : 0 ∉ s) : s.takeWhile (· != 0) = s := by
  induction s with
  | nil => rfl
  | cons a t ih =>
    have ha : a ≠ 0 := by
      intro h; subst h; exact hs (List.mem_cons_self 0 t)
    have ht : 0 ∉ t := fun h => hs (List.mem_cons_of_mem a h)
    have hab : (a != 0) = true := by simpa using ha
    simp only [List.takeWhile_cons, hab, if_true, ih ht]

theorem takeWhile_zero_length_lt (l : List Nat) (h : 0 ∈ l) :
    (l.takeWhile (· != 0)).length < l.length := by
  induction l with
  | nil => cases h
  | cons a t ih =>
    by_cases ha : a = 0
    · subst ha
      simp [List.takeWhile_cons]
    · have h0t : 0 ∈ t := by
        rcases List.mem_cons.mp h with h' | h'
        · exact absurd h'.symm ha
        · exact h'
      have hab : (a != 0) = true := by simpa using ha
      simp only [List.takeWhile_cons, hab, if_true, List.length_cons]
      exact Nat.succ_lt_succ (ih h0t)

theorem small_ne_cap (n : Nat) (h : n < 4096) : ∀ k, n ≠ 4096 * 2 ^ k := by
  intro k
  have h1 : 1 ≤ 2 ^ k := Nat.one_le_two_pow
  omega

/-- Core characterization of the retry loop under successful allocation:
with enough fuel it terminates in state done, the reported code is the true
output length, the final capacity is the starting one doubled some number
of times, the final buffer starts with the true output, every earlier
capacity was strictly too small (which is exactly when the transform
reports the sentinel), and the output fits the final capacity. -/
theorem sizingLoop_done (grow : List Nat → List Nat → List Nat)
    (hgrow : ∀ old j, old.length ≤ j.length → (grow old j).length = j.length)
    (f : List Nat → List Nat) (input : List Nat) (m : Mem)
    (hm : ∀ r, m.fails r = false) :
    ∀ fuel round buf, 0 < buf.length → (f input).length ≤ buf.length + fuel →
      ∃ k rest,
        sizingLoop grow f input m (fuel + 1) round buf
          = some (LoopOut.done (f input).length (buf.length * 2 ^ k) (f input ++ rest)) ∧
        (f input).length + rest.length = buf.length * 2 ^ k ∧
        (∀ j, j < k → buf.length * 2 ^ j < (f input).length) ∧
        (f input).length ≤ buf.length * 2 ^ k := by
  intro fuel
  induction fuel with
  | zero =>
    intro round buf hpos hle
    have hfit : (f input).length ≤ buf.length := by omega
    have hcode : (runTransform f input buf).1 = (f input).length := by
      simp [runTransform, transformCode, hfit]
    refine ⟨0, buf.drop (f input).length, ?_, ?_, ?_, ?_⟩
    · rw [sizingLoop_succ, if_neg (by omega), hcode]
      have hbuf2 : (runTransform f input buf).2 = f input ++ buf.drop (f input).length := by
        simp [runTransform, hfit]
      rw [hbuf2]
      simp
    · simp only [List.length_drop]
      omega
    · intro j hj; omega
    · simpa using hfit
  | succ fuel ih =>
    intro round buf hpos hle
    by_cases hfit : (f input).length ≤ buf.length
    · have hcode : (runTransform f input buf).1 = (f input).length := by
        simp [runTransform, transformCode, hfit]
      refine ⟨0, buf.drop (f input).length, ?_, ?_, ?_, ?_⟩
      · rw [sizingLoop_succ, if_neg (by omega), hcode]
        have hbuf2 : (runTransform f input buf).2 = f input ++ buf.drop (f input).length := by
          simp [runTransform, hfit]
        rw [hbuf2]
        simp
      · simp only [List.length_drop]
        omega
      · intro j hj; omega
      · simpa using hfit
    · have hgt : buf.length < (f input).length := by omega
      have hcode : (runTransform f input buf).1 = buf.length + 1 := by
        simp [runTransform, transformCode, hfit]
      have halloc : m.alloc round (2 * buf.length)
          = some ((List.range (2 * buf.length)).map (m.junk round)) :=
        alloc_of_ok m round (2 * buf.length) (hm round)
      have hjlen : ((List.range (2 * buf.length)).map (m.junk round)).length
          = 2 * buf.length := by simp
      have hglen : (grow buf ((List.range (2 * buf.length)).map (m.junk round))).length
          = 2 * buf.length := by
        rw [hgrow buf _ (by omega)]
        exact hjlen
      obtain ⟨k, rest, hloop, hlen, hsent, hfitk⟩ :=
        ih (round + 1) (grow buf ((List.range (2 * buf.length)).map (m.junk round)))
          (by omega) (by omega)
      rw [hglen] at hloop hlen hsent hfitk
      refine ⟨k + 1, rest, ?_, ?_, ?_, ?_⟩
      · rw [sizingLoop_succ, if_pos (by rw [hcode]), halloc]
        have heq2 : 2 * buf.length * 2 ^ k = buf.length * 2 ^ (k + 1) := by ring
        rw [heq2] at hloop
        simpa using hloop
      · have : 2 * buf.length * 2 ^ k = buf.length * 2 ^ (k + 1) := by ring
        omega
      · intro j hj
        cases j with
        | zero => simpa using hgt
        | succ j' =>
          have hj' : j' < k := by omega
          have := hsent j' hj'
          have heq : 2 * buf.length * 2 ^ j' = buf.length * 2 ^ (j' + 1) := by ring
          omega
      · have : 2 * buf.length * 2 ^ k = buf.length * 2 ^ (k + 1) := by ring
        omega

/-- Unfolding of the compress wrapper on a single text argument. -/
theorem py_smaz_compress_str (f : List Nat → List Nat) (m : Mem) (s : List Nat) :
    py_smaz_compress f m [PyVal.str s] =
      if 0 ∈ s then some PyRes.argError
      else
        match m.alloc 0 4096 with
        | none => some PyRes.crash
        | some buf0 =>
          match sizingLoop growRealloc f (s.take (strlen s)) m
              ((f (s.take (strlen s))).length + 1) 1 buf0 with
          | none => none
          | some LoopOut.crash => some PyRes.crash
          | some (LoopOut.done code _ buf) => some (PyRes.ok (buf.take code)) := rfl

/-- Unfolding of the decompress wrapper on a single bytes argument. -/
theorem py_smaz_decompress_bytes (f : List Nat → List Nat) (m : Mem) (b : List Nat) :
    py_smaz_decompress f m [PyVal.bytes b] =
      match m.alloc 0 4096 with
      | none => some PyRes.crash
      | some buf0 =>
        match sizingLoop growFresh f b m ((f b).length + 1) 1 buf0 with
        | none => none
        | some LoopOut.crash => some PyRes.crash
        | some (LoopOut.done code _ buf) =>
          if code < buf.length then
            some (PyRes.ok ((buf.set code 0).takeWhile (· != 0)))
          else some PyRes.crash := rfl

/-- Under never-failing allocation, compress on NUL-free text returns
exactly the codec's output, whatever its length and whatever junk the
allocator supplies. -/
theorem compress_ok (f : List Nat → List Nat) (m : Mem) (s : List Nat)
    (hm : ∀ r, m.fails r = false) (hs : 0 ∉ s) :
    py_smaz_compress f m [PyVal.str s] = some (PyRes.ok (f s)) := by
  have hstr : s.take (strlen s) = s := by
    rw [strlen, takeWhile_ne_zero s hs, List.take_length]
  have hb0 : ((List.range 4096).map (m.junk 0)).length = 4096 := by simp
  obtain ⟨k, rest, hloop, hlen, hsent, hfitk⟩ :=
    sizingLoop_done growRealloc growRealloc_length f s m hm ((f s).length) 1
      ((List.range 4096).map (m.junk 0)) (by omega) (by omega)
  rw [py_smaz_compress_str, if_neg hs, alloc_of_ok m 0 4096 (hm 0)]
  simp only [hstr]
  rw [hloop]
  simp only []
  rw [take_len_append]

/-- Under never-failing allocation, when the decompressed length is not
exactly a reachable capacity (4096 doubled some number of times), the
terminator write is in bounds and decompress returns the decoded bytes up
to their first NUL, whatever junk the allocator supplies. -/
theorem decompress_ok (f : List Nat → List Nat) (m : Mem) (b : List Nat)
    (hm : ∀ r, m.fails r = false) (hk : ∀ k, (f b).length ≠ 4096 * 2 ^ k) :
    py_smaz_decompress f m [PyVal.bytes b]
      = some (PyRes.ok ((f b).takeWhile (· != 0))) := by
  have hb0 : ((List.range 4096).map (m.junk 0)).length = 4096 := by simp
  obtain ⟨k, rest, hloop, hlen, hsent, hfitk⟩ :=
    sizingLoop_done growFresh growFresh_length f b m hm ((f b).length) 1
      ((List.range 4096).map (m.junk 0)) (by omega) (by omega)
  rw [hb0] at hloop hlen hsent hfitk
  have hlt : (f b).length < 4096 * 2 ^ k := lt_of_le_of_ne hfitk (hk k)
  have hrest : rest.length ≠ 0 := by omega
  rcases rest with _ | ⟨r0, rest'⟩
  · simp at hrest
  · rw [py_smaz_decompress_bytes, alloc_of_ok m 0 4096 (hm 0)]
    simp only [hloop]
    rw [if_pos (by simp only [List.length_append]; omega)]
    rw [set_len_append]
    simp only [List.set]
    rw [takeWhile_append_zero]

/-- Under never-failing allocation, when the decompressed length is exactly
the capacity the loop stops at, the terminator write at that index is out
of bounds: the call is undefined behaviour. -/
theorem decompress_crash (f : List Nat → List Nat) (m : Mem) (b : List Nat)
    (hm : ∀ r, m.fails r = false) (k : Nat)
    (hklen : (f b).length = 4096 * 2 ^ k)
    (hkmin : ∀ j, j < k → 4096 * 2 ^ j < (f b).length) :
    py_smaz_decompress f m [PyVal.bytes b] = some PyRes.crash := by
  have hb0 : ((List.range 4096).map (m.junk 0)).length = 4096 := by simp
  obtain ⟨k', rest, hloop, hlen, hsent, hfitk⟩ :=
    sizingLoop_done growFresh growFresh_length f b m hm ((f b).length) 1
      ((List.range 4096).map (m.junk 0)) (by omega) (by omega)
  rw [hb0] at hloop hlen hsent hfitk
  have hkk : k' = k := by
    rcases lt_trichotomy k' k with h | h | h
    · have h1 := hkmin k' h
      omega
    · exact h
    · have h2 := hsent k h
      omega
  subst hkk
  have hrest : rest.length = 0 := by omega
  have hrest2 : rest = [] := List.length_eq_zero.mp hrest
  subst hrest2
  rw [py_smaz_decompress_bytes, alloc_of_ok m 0 4096 (hm 0)]
  simp only [hloop]
  rw [if_neg (by simp only [List.length_append, List.length_nil]; omega)]

/-- C3: per call, the sizing protocol is exactly the state machine
Sizing(C) to Sizing(2C) on the overflow sentinel (result = capacity + 1)
and Sizing(C) to Done(L) on any other result: starting from capacity 4096,
the loop reaches Done with the true output length L at capacity
4096 * 2 ^ k, every earlier capacity produced exactly the sentinel, and the
exit result L is not a sentinel; no other transitions occur. -/
theorem c3_sizing_state_machine (grow : List Nat → List Nat → List Nat)
    (hgrow : ∀ old j, old.length ≤ j.length → (grow old j).length = j.length)
    (f : List Nat → List Nat) (input : List Nat) (m : Mem)
    (hm : ∀ r, m.fails r = false) (buf0 : List Nat) (h0 : buf0.length = 4096)
    (fuel : Nat) (hfuel : (f input).length ≤ 4096 + fuel) :
    ∃ k rest,
      sizingLoop grow f input m (fuel + 1) 1 buf0
        = some (LoopOut.done (f input).length (4096 * 2 ^ k) (f input ++ rest)) ∧
      (∀ j, j < k → transformCode f input (4096 * 2 ^ j) = 4096 * 2 ^ j + 1) ∧
      transformCode f input (4096 * 2 ^ k) = (f input).length ∧
      (f input).length ≠ 4096 * 2 ^ k + 1 := by
  obtain ⟨k, rest, hloop, hlen, hsent, hfitk⟩ :=
    sizingLoop_done grow hgrow f input m hm fuel 1 buf0 (by omega) (by omega)
  rw [h0] at hloop hlen hsent hfitk
  refine ⟨k, rest, hloop, ?_, ?_, by omega⟩
  · intro j hj
    have := hsent j hj
    rw [transformCode, if_neg (by omega)]
  · rw [transformCode, if_pos hfitk]

/-- Witness for C3 at a concrete instantiation: the identity codec on the
one-byte input 65, zeroed memory, the fresh-malloc growth step and an
initial 4096-byte buffer. -/
theorem c3_sizing_state_machine_witness :
    ∃ k rest,
      sizingLoop growFresh idCodec [65] Mem.zeros 1 1 (List.replicate 4096 0)
        = some (LoopOut.done (idCodec [65]).length (4096 * 2 ^ k) (idCodec [65] ++ rest)) ∧
      (∀ j, j < k → transformCode idCodec [65] (4096 * 2 ^ j) = 4096 * 2 ^ j + 1) ∧
      transformCode idCodec [65] (4096 * 2 ^ k) = (idCodec [65]).length ∧
      (idCodec [65]).length ≠ 4096 * 2 ^ k + 1 :=
  c3_sizing_state_machine growFresh growFresh_length idCodec [65] Mem.zeros
    (fun _ => rfl) (List.replicate 4096 0) (List.length_replicate 4096 0) 0 (by decide)

/-- C4 (amended): on success with reported length L, the compress result is
exactly the first L bytes of the scratch buffer (the codec output itself),
of length exactly L, independent of the junk beyond L and of the buffer
capacity (the memory oracle is arbitrary); the decompress result, when the
terminator write is in bounds, is the longest NUL-free prefix of the first
L decompressed bytes -- equal to all L bytes exactly when they are
NUL-free -- and bytes beyond position L never appear in either result. -/
theorem c4_exact_prefix_result (fc fd : List Nat → List Nat) (m : Mem)
    (hm : ∀ r, m.fails r = false) (s b : List Nat) (hs : 0 ∉ s)
    (hb : ∀ k, (fd b).length ≠ 4096 * 2 ^ k) :
    py_smaz_compress fc m [PyVal.str s] = some (PyRes.ok (fc s)) ∧
    py_smaz_decompress fd m [PyVal.bytes b]
      = some (PyRes.ok ((fd b).takeWhile (· != 0))) ∧
    (fd b).takeWhile (· != 0) ++ (fd b).dropWhile (· != 0) = fd b :=
  ⟨compress_ok fc m s hm hs, decompress_ok fd m b hm hb,
    List.takeWhile_append_dropWhile _ _⟩

/-- C4 counterexample: a decompression whose decoded bytes are 65, 0, 66
(reported length L = 3) returns the host string 65 alone -- not the first
L bytes of the scratch buffer and not of length L. -/
theorem c4_counterexample :
    py_smaz_decompress (fun _ => [65, 0, 66]) Mem.zeros [PyVal.bytes [1]]
      = some (PyRes.ok [65]) ∧ ([65] : List Nat).length ≠ 3 := by
  constructor
  · have h := decompress_ok (fun _ => [65, 0, 66]) Mem.zeros [1]
      (fun _ => rfl) (by intro k; simpa using small_ne_cap 3 (by norm_num) k)
    rw [h]
    rfl
  · decide

/-- C5: on a successful decompression whose decoded bytes contain a NUL
before position L (and whose terminator write is in bounds), the returned
host string is the decoded bytes truncated at the first NUL, strictly
shorter than L. -/
theorem c5_embedded_zero_truncates (f : List Nat → List Nat) (m : Mem) (b : List Nat)
    (hm : ∀ r, m.fails r = false) (hcap : ∀ k, (f b).length ≠ 4096 * 2 ^ k)
    (hz : 0 ∈ f b) :
    py_smaz_decompress f m [PyVal.bytes b]
      = some (PyRes.ok ((f b).takeWhile (· != 0))) ∧
    ((f b).takeWhile (· != 0)).length < (f b).length :=
  ⟨decompress_ok f m b hm hcap, takeWhile_zero_length_lt (f b) hz⟩

/-- Witness for C5: decoded bytes 7, 0, 8 yield the host string 7 alone,
of length 1 < 3. -/
theorem c5_embedded_zero_truncates_witness :
    py_smaz_decompress (fun _ => [7, 0, 8]) Mem.zeros [PyVal.bytes [2]]
      = some (PyRes.ok (([7, 0, 8] : List Nat).takeWhile (· != 0))) ∧
    (([7, 0, 8] : List Nat).takeWhile (· != 0)).length < ([7, 0, 8] : List Nat).length :=
  c5_embedded_zero_truncates (fun _ => [7, 0, 8]) Mem.zeros [2] (fun _ => rfl)
    (by intro k; simpa using small_ne_cap 3 (by norm_num) k) (by decide)

/-- C1: evaluation at the failing input of the round-trip law.  With a
codec whose compress and decompress directions invert each other (here the
identity codec, which satisfies the spec's transform contract), a NUL-free
4096-byte text compresses correctly, but decompressing the compressed
bytes makes the wrapper write its NUL terminator at index 4096 of a
4096-byte buffer: an out-of-bounds write, so the round trip ends in
undefined behaviour instead of returning the input. -/
theorem c1_round_trip_oob_at_4096 :
    py_smaz_compress idCodec Mem.zeros [PyVal.str (List.replicate 4096 65)]
      = some (PyRes.ok (List.replicate 4096 65)) ∧
    py_smaz_decompress idCodec Mem.zeros [PyVal.bytes (List.replicate 4096 65)]
      = some PyRes.crash := by
  constructor
  · exact compress_ok idCodec Mem.zeros (List.replicate 4096 65) (fun _ => rfl)
      (by intro h; rw [List.mem_replicate] at h; omega)
  · exact decompress_crash idCodec Mem.zeros (List.replicate 4096 65) (fun _ => rfl) 0
      (by rw [show idCodec (List.replicate 4096 65) = List.replicate 4096 65 from rfl,
            List.length_replicate]; norm_num)
      (fun j hj => absurd hj (Nat.not_lt_zero j))

/-- C2: evaluation at the failing input of the growth-correctness claim.
An 8192-byte output exceeds the initial 4096-byte capacity; the compress
path grows the buffer and returns the exact untruncated result, but the
decompress path, whose decoded output is exactly the grown capacity 8192,
writes its NUL terminator out of bounds: undefined behaviour instead of
the exactly-correct result. -/
theorem c2_growth_oob_at_8192 :
    py_smaz_compress idCodec Mem.zeros [PyVal.str (List.replicate 8192 66)]
      = some (PyRes.ok (List.replicate 8192 66)) ∧
    py_smaz_decompress idCodec Mem.zeros [PyVal.bytes (List.replicate 8192 66)]
      = some PyRes.crash := by
  constructor
  · exact compress_ok idCodec Mem.zeros (List.replicate 8192 66) (fun _ => rfl)
      (by intro h; rw [List.mem_replicate] at h; omega)
  · refine decompress_crash idCodec Mem.zeros (List.replicate 8192 66) (fun _ => rfl) 1
      ?_ ?_
    · rw [show idCodec (List.replicate 8192 66) = List.replicate 8192 66 from rfl,
        List.length_replicate]
      norm_num
    · intro j hj
      have hj0 : j = 0 := by omega
      subst hj0
      rw [show idCodec (List.replicate 8192 66) = List.replicate 8192 66 from rfl,
        List.length_replicate]
      norm_num

/-- C6: evaluation at the failing input of the allocation-failure claim.
When the initial malloc fails, neither wrapper raises an out-of-memory
error: the C code never checks the allocation result and passes the NULL
buffer to the transform, which is undefined behaviour, not a reported
error. -/
theorem c6_alloc_failure_is_crash :
    py_smaz_compress idCodec memFail [PyVal.str [65]] = some PyRes.crash ∧
    py_smaz_decompress idCodec memFail [PyVal.bytes [65]] = some PyRes.crash ∧
    PyRes.crash ≠ PyRes.memError := by
  refine ⟨rfl, rfl, ?_⟩
  intro h
  cases h

/-- C7: compress returns an argument error for every argument tuple that
is not a single text value (including a single bytes value), and
decompress returns an argument error for every argument tuple that is not
a single bytes value (including a single text value), each under its own
shape hypothesis only; the result does not depend on the memory oracle,
which is never consulted -- no allocation and no partial work happen. -/
theorem c7_wrong_shape_argument (f g : List Nat → List Nat) (m m2 : Mem)
    (args : List PyVal) :
    ((∀ s, args ≠ [PyVal.str s]) →
      py_smaz_compress f m args = some PyRes.argError) ∧
    ((∀ b, args ≠ [PyVal.bytes b]) →
      py_smaz_decompress g m2 args = some PyRes.argError) := by
  constructor
  · intro hc
    rcases args with _ | ⟨v, _ | ⟨w, t2⟩⟩
    · rfl
    · cases v with
      | str s => exact absurd rfl (hc s)
      | bytes b => rfl
      | intVal n => rfl
      | other => rfl
    · cases v with
      | str s => rfl
      | bytes b => rfl
      | intVal n => rfl
      | other => rfl
  · intro hd
    rcases args with _ | ⟨v, _ | ⟨w, t2⟩⟩
    · rfl
    · cases v with
      | str s => rfl
      | bytes b => exact absurd rfl (hd b)
      | intVal n => rfl
      | other => rfl
    · cases v with
      | str s => rfl
      | bytes b => rfl
      | intVal n => rfl
      | other => rfl

/-- Witness for C7 at the cross-shaped cases: compress rejects a single
bytes argument and decompress rejects a single text argument, even under
an allocator that would fail (so no allocation is performed). -/
theorem c7_wrong_shape_argument_witness :
    py_smaz_compress idCodec memFail [PyVal.bytes [65]] = some PyRes.argError ∧
    py_smaz_decompress idCodec memFail [PyVal.str [65]] = some PyRes.argError :=
  ⟨(c7_wrong_shape_argument idCodec idCodec memFail memFail [PyVal.bytes [65]]).1
      (fun s h => by simp at h),
   (c7_wrong_shape_argument idCodec idCodec memFail memFail [PyVal.str [65]]).2
      (fun b h => by simp at h)⟩

/-- C8: compressing the empty text returns the empty byte sequence, and
decompressing the empty bytes returns the empty text, given the
spec-modelled property that the codec maps empty input to empty output. -/
theorem c8_empty_input (fc fd : List Nat → List Nat) (m : Mem)
    (hm : ∀ r, m.fails r = false) (hc : fc [] = []) (hd : fd [] = []) :
    py_smaz_compress fc m [PyVal.str []] = some (PyRes.ok []) ∧
    py_smaz_decompress fd m [PyVal.bytes []] = some (PyRes.ok []) := by
  constructor
  · have h := compress_ok fc m [] hm (by simp)
    rw [h, hc]
  · have h := decompress_ok fd m [] hm
      (by rw [hd]; exact small_ne_cap 0 (by norm_num))
    rw [h, hd]
    rfl

/-- Witness for C8 with the identity codec and zeroed memory. -/
theorem c8_empty_input_witness :
    py_smaz_compress idCodec Mem.zeros [PyVal.str []] = some (PyRes.ok []) ∧
    py_smaz_decompress idCodec Mem.zeros [PyVal.bytes []] = some (PyRes.ok []) :=
  c8_empty_input idCodec idCodec Mem.zeros (fun _ => rfl) rfl rfl

/-- C9: evaluation at the failing input of the terminator-write claim.
For a decompressed output of exactly 4096 bytes the transform reports
success with L = 4096 equal to the buffer capacity, so the terminator
write at index L is not strictly below the capacity: it is an
out-of-bounds heap write, undefined behaviour. -/
theorem c9_terminator_write_out_of_bounds :
    py_smaz_decompress constOut4096 Mem.zeros [PyVal.bytes [1]] = some PyRes.crash :=
  decompress_crash constOut4096 Mem.zeros [1] (fun _ => rfl) 0
    (by rw [show constOut4096 [1] = List.replicate 4096 65 from rfl,
          List.length_replicate]; norm_num)
    (fun j hj => absurd hj (Nat.not_lt_zero j))

/-- C10: compress rejects, with an argument error, every text containing
an embedded NUL byte; on the accepted NUL-free texts the strlen prefix
passed to the transform is the whole text, so the transform input length
equals the full text length. -/
theorem c10_embedded_null_rejected (f : List Nat → List Nat) (m : Mem) (s : List Nat) :
    (0 ∈ s → py_smaz_compress f m [PyVal.str s] = some PyRes.argError) ∧
    (0 ∉ s → s.take (strlen s) = s ∧ strlen s = s.length) := by
  constructor
  · intro h
    rw [py_smaz_compress_str, if_pos h]
  · intro h
    have ht : s.takeWhile (· != 0) = s := takeWhile_ne_zero s h
    exact ⟨by rw [strlen, ht, List.take_length], by rw [strlen, ht]⟩

/-- Witness for C10 at the text 0 (rejected) and the text 65 (accepted,
with the strlen prefix equal to the whole text). -/
theorem c10_embedded_null_rejected_witness :
    py_smaz_compress idCodec Mem.zeros [PyVal.str [0]] = some PyRes.argError ∧
    (List.take (strlen [65]) [65] = [65] ∧ strlen [65] = ([65] : List Nat).length) :=
  ⟨(c10_embedded_null_rejected idCodec Mem.zeros [0]).1 (by decide),
   (c10_embedded_null_rejected idCodec Mem.zeros [65]).2 (by decide)⟩

/-- Witness for the amended C4 with the identity codec, the one-byte text
65 and the one-byte compressed input 66, under zeroed memory. -/
theorem c4_exact_prefix_result_witness :
    py_smaz_compress idCodec Mem.zeros [PyVal.str [65]] = some (PyRes.ok (idCodec [65])) ∧
    py_smaz_decompress idCodec Mem.zeros [PyVal.bytes [66]]
      = some (PyRes.ok ((idCodec [66]).takeWhile (· != 0))) ∧
    (idCodec [66]).takeWhile (· != 0) ++ (idCodec [66]).dropWhile (· != 0) = idCodec [66] :=
  c4_exact_prefix_result idCodec idCodec Mem.zeros (fun _ => rfl) [65] [66]
    (by decide) (by intro k; exact small_ne_cap 1 (by norm_num) k)
